import Mathlib

/-!
Shallow embedding of the `lrumap` Go package (file `cache.go` of
m-mizutani/lrumap): a hash-chained lookup table combined with a fixed-size
circular tick wheel of expiration slots.

Modelling conventions:
* Go `uint64` values (`tick`, `hashValue`) are `Nat` with an explicit
  `% uintSize` wherever the Go arithmetic can wrap.
* Key bytes are `Fin 256`, matching Go `byte`.
* `LruData` (the Go interface with `Key() *[]byte`) is a structure holding
  its key bytes plus a value field standing for the rest of the payload.
* Go nodes have pointer identity; the embedding gives every node a fresh
  allocation number `id` drawn from a counter `nextId` in the store.
* The intrusive doubly linked hash chains and singly linked frame chains
  are represented as Lean lists in chain order (the `root` sentinel of a
  `bucket` is left implicit; its `data` is `nil`, so `equals` on it is
  always false).  `node.detach`, which unlinks a node from whatever hash
  chain holds it via its `prev`/`next` pointers, becomes removal (by `id`)
  from every chain; on a node that is not linked anywhere it is a no-op,
  exactly like the pointer version.
* The Go `map[hashValue]*bucket` is a total function `Nat → List node`
  where an absent bucket is the empty chain (a nil bucket and an empty
  bucket are observationally identical in every code path).
-/

/-- Go `byte`. -/
abbrev Byte := Fin 256

/-- 2^64, the modulus of Go `uint64` arithmetic (`tick`, `hashValue`). -/
def uintSize : Nat := 2 ^ 64

/-- The `LruData` interface: a payload exposing key bytes via `Key()`.
`val` stands for the payload identity beyond the key (distinct Go objects
may carry byte-equal keys). -/
structure LruData where
  key : List Byte
  val : Nat
deriving DecidableEq, Repr

/-- `const fnvBasis = 14695981039346656037`. -/
def fnvBasis : Nat := 14695981039346656037

/-- `const fnvPrime = 1099511628211`. -/
def fnvPrime : Nat := 1099511628211

/-- `func fnvHash(s *[]byte) (h hashValue)`: FNV-1a over the key bytes,
`h ^= byte; h *= fnvPrime` in `uint64` arithmetic. -/
def fnvHash (s : List Byte) : Nat :=
  s.foldl (fun h b => ((h ^^^ b.val) * fnvPrime) % uintSize) fnvBasis

/-- `type node struct`: the embedding keeps the payload and an allocation
number standing for the Go pointer identity; the `next`/`prev`/`frameLink`
pointers are implicit in the list representation of chains and frames. -/
structure node where
  id : Nat
  data : LruData
deriving DecidableEq, Repr

/-- `func (x *bucket) insert(newNode *node) error`: walk the chain from the
sentinel `root`; while `p.next != nil`, compare `p` (never the final node of
the chain, and the sentinel always compares false) against the new node;
on a key match return the "Duplicated key" error with the chain unchanged,
otherwise attach the new node after the last node (append at the tail). -/
def chainInsert : List node → node → Option String × List node
  | [], n => (none, [n])
  | [a], n => (none, [a, n])
  | a :: b :: rest, n =>
    if a.data.key = n.data.key then
      (some "Duplicated key", a :: b :: rest)
    else
      let r := chainInsert (b :: rest) n
      (r.1, a :: r.2)

/-- `func (x *bucket) search(key *[]byte) *node`: scan the chain from
`root.next` and return the first node whose key is byte-equal
(`bytes.Equal`) to the probe key. -/
def chainSearch : List node → List Byte → Option node
  | [], _ => none
  | a :: rest, key => if a.data.key = key then some a else chainSearch rest key

/-- `func (x *node) detach()`: unlink the node from whatever hash chain
holds it, a no-op when it is not linked.  In the list representation this
removes the node, identified by its allocation number, from every chain. -/
def detachNode (n : node) (table : Nat → List node) : Nat → List node :=
  fun h => (table h).filter (fun y => y.id != n.id)

/-- The hash-chain detachments performed while draining one frame chain:
`frame.prune` calls `link.detach()` on every node of the slot in order. -/
def detachAll (ns : List node) (table : Nat → List node) : Nat → List node :=
  ns.foldl (fun t n => detachNode n t) table

/-- `type LruMap struct`. `table` maps a hash value to its bucket chain,
`frames` is the circular wheel (one `List node` per slot, in `frameLink`
order), `current` and `maxTick` are Go `uint64` ticks, `count` is the Go
`int` live counter, and `nextId` is the allocation counter standing for
pointer freshness. -/
structure LruMap where
  table : Nat → List node
  frames : List (List node)
  current : Nat
  maxTick : Nat
  count : Int
  nextId : Nat

/-- `func New(maxTick tick) *LruMap`: empty table, `maxTick+1` empty
frames, zero tick. -/
def LruMap.New (maxTick : Nat) : LruMap :=
  { table := fun _ => []
    frames := List.replicate (maxTick + 1) []
    current := 0
    maxTick := maxTick
    count := 0
    nextId := 0 }

/-- `func (x *LruMap) Put(obj LruData, ttl tick) error`.  Rejects
`ttl > maxTick`; otherwise hashes the key, runs `bucket.insert` and
*ignores its error*, prepends the same node onto frame
`(current + ttl) mod len(frames)` (`getFrame` + `frame.add`), and
increments `count` — all even when the insert reported a duplicate. -/
def LruMap.Put (m : LruMap) (obj : LruData) (ttl : Nat) : Option String × LruMap :=
  if m.maxTick < ttl then
    (some "TTL is over maxTick", m)
  else
    let hv := fnvHash obj.key
    let newNode : node := { id := m.nextId, data := obj }
    let ins := chainInsert (m.table hv) newNode
    let p := ((m.current + ttl) % uintSize) % m.frames.length
    (none,
      { m with
        table := fun h => if h = hv then ins.2 else m.table h
        frames := m.frames.set p (newNode :: m.frames.getD p [])
        count := m.count + 1
        nextId := m.nextId + 1 })

/-- `func (x *LruMap) Get(key *[]byte) LruData`: look up the bucket chain
for the key hash and search it; `nil` (here `none`) when the bucket is
absent or no node matches. -/
def LruMap.Get (m : LruMap) (key : List Byte) : Option LruData :=
  match chainSearch (m.table (fnvHash key)) key with
  | none => none
  | some n => some n.data

/-- One loop iteration body of `Prune`: `getFrame(x.current + i)` followed
by `frame.prune()`, which detaches every node of the slot from its hash
chain, collects the slot's nodes, and leaves the slot empty.  `t` is the
already-wrapped `uint64` sum `current + i`. -/
def drainSlot (m : LruMap) (t : Nat) : List node × LruMap :=
  let p := t % m.frames.length
  let fr := m.frames.getD p []
  (fr,
    { m with
      table := detachAll fr m.table
      frames := m.frames.set p [] })

/-- The `for i := tick(0); i < progress; i++` loop of `Prune`, recursing on
the number `k` of remaining iterations; `cur` is the (loop-invariant)
`x.current` and `i` the loop index. -/
def pruneLoop (cur : Nat) : Nat → Nat → LruMap → List node × LruMap
  | _, 0, m => ([], m)
  | i, k + 1, m =>
    let d := drainSlot m ((cur + i) % uintSize)
    let r := pruneLoop cur (i + 1) k d.2
    (d.1 ++ r.1, r.2)

/-- `func (x *LruMap) Prune(progress tick) *[]LruData`: run the drain loop,
subtract the number of drained entries from `count`, advance `current` by
`progress` in `uint64` arithmetic, and return the drained payloads. -/
def LruMap.Prune (m : LruMap) (progress : Nat) : List LruData × LruMap :=
  let r := pruneLoop m.current 0 progress m
  (r.1.map node.data,
    { r.2 with
      count := r.2.count - r.1.length
      current := (r.2.current + progress) % uintSize })

/-- `func (x *LruMap) Size() int`. -/
def LruMap.Size (m : LruMap) : Int :=
  m.count

/-- All nodes currently held by the wheel, slot by slot.  A node is "live"
(previously put, not yet drained) exactly when it appears here. -/
def LruMap.liveNodes (m : LruMap) : List node :=
  m.frames.flatten

/-- The store states reachable through the public API from a fresh
`New maxTick` store (`Get` and `Size` do not mutate). -/
inductive Reachable : LruMap → Prop
  | new (maxTick : Nat) : Reachable (LruMap.New maxTick)
  | put {m : LruMap} (obj : LruData) (ttl : Nat) :
      Reachable m → Reachable (m.Put obj ttl).2
  | prune {m : LruMap} (progress : Nat) :
      Reachable m → Reachable (m.Prune progress).2

/-! ### List and multiset bookkeeping for the wheel slots -/

theorem getD_set_same {α : Type} (l : List α) (p : Nat) (d : α) :
    (l.set p d).getD p d = d := by
  rcases Nat.lt_or_ge p l.length with hp | hp
  · simp [List.getD_eq_getElem?_getD, List.getElem?_set, hp]
  · have : (l.set p d) = l := List.set_eq_of_length_le (by simpa using hp)
    rw [this, List.getD_eq_getElem?_getD, List.getElem?_eq_none (by simpa using hp)]
    rfl

theorem getD_set_ne {α : Type} (l : List α) (p j : Nat) (x d : α) (h : p ≠ j) :
    (l.set p x).getD j d = l.getD j d := by
  simp [List.getD_eq_getElem?_getD, List.getElem?_set, h]

theorem getD_mem_flatten {α : Type} (l : List (List α)) (j : Nat) (x : α)
    (h : x ∈ l.getD j []) : x ∈ l.flatten := by
  rcases Nat.lt_or_ge j l.length with hj | hj
  · rw [List.getD_eq_getElem?_getD, List.getElem?_eq_getElem hj] at h
    exact List.mem_flatten.2 ⟨l[j], List.getElem_mem hj, h⟩
  · rw [List.getD_eq_getElem?_getD, List.getElem?_eq_none (by simpa using hj)] at h
    simp at h

theorem flatten_set_multiset {α : Type} (l : List (List α)) (p : Nat) (v : List α)
    (hp : p < l.length) :
    (↑((l.set p v).flatten) : Multiset α) + ↑(l.getD p []) = ↑l.flatten + ↑v := by
  induction l generalizing p with
  | nil => simp at hp
  | cons a t ih =>
    cases p with
    | zero =>
      simp only [List.set, List.flatten_cons, List.getD_cons_zero, ← Multiset.coe_add]
      abel
    | succ q =>
      have hq : q < t.length := by simpa using hp
      simp only [List.set, List.flatten_cons, List.getD_cons_succ, ← Multiset.coe_add]
      rw [add_assoc, ih q hq, ← add_assoc]

theorem flatten_set_nil_multiset {α : Type} (l : List (List α)) (p : Nat) :
    (↑((l.set p []).flatten) : Multiset α) + ↑(l.getD p []) = ↑l.flatten := by
  rcases Nat.lt_or_ge p l.length with hp | hp
  · simpa using flatten_set_multiset l p [] hp
  · have h1 : (l.set p ([] : List α)) = l := List.set_eq_of_length_le (by simpa using hp)
    rw [h1, List.getD_eq_getElem?_getD, List.getElem?_eq_none (by simpa using hp)]
    simp

theorem flatten_set_cons_multiset {α : Type} (l : List (List α)) (p : Nat) (x : α)
    (hp : p < l.length) :
    (↑((l.set p (x :: l.getD p [])).flatten) : Multiset α) = x ::ₘ ↑l.flatten := by
  have h1 := flatten_set_multiset l p (x :: l.getD p []) hp
  rw [← Multiset.cons_coe] at h1
  have h2 : (↑l.flatten : Multiset α) + (x ::ₘ ↑(l.getD p [])) =
      (x ::ₘ ↑l.flatten) + ↑(l.getD p []) := by
    rw [Multiset.add_cons, Multiset.cons_add]
  rw [h2] at h1
  exact add_right_cancel h1

theorem flatten_eq_nil_of_getD {α : Type} (l : List (List α))
    (h : ∀ j, l.getD j [] = []) : l.flatten = [] := by
  induction l with
  | nil => rfl
  | cons a t ih =>
    have ha : a = [] := h 0
    have ht : t.flatten = [] := ih (fun j => h (j + 1))
    simp [ha, ht]

/-! ### Detachment from the hash chains -/

theorem detachAll_nil (t : Nat → List node) : detachAll [] t = t := rfl

theorem detachAll_cons (n : node) (ns : List node) (t : Nat → List node) :
    detachAll (n :: ns) t = detachAll ns (detachNode n t) := rfl

theorem detachAll_append (a b : List node) (t : Nat → List node) :
    detachAll (a ++ b) t = detachAll b (detachAll a t) :=
  List.foldl_append _ _ a b

theorem mem_detachAll (ns : List node) (t : Nat → List node) (h : Nat) (x : node) :
    x ∈ detachAll ns t h ↔ x ∈ t h ∧ ∀ n ∈ ns, x.id ≠ n.id := by
  induction ns generalizing t with
  | nil => simp [detachAll_nil]
  | cons n rest ih =>
    rw [detachAll_cons, ih]
    simp only [detachNode, List.mem_filter, List.forall_mem_cons, bne_iff_ne, ne_eq]
    tauto

/-! ### The prune loop: state bookkeeping -/

theorem pruneLoop_fields (cur i k : Nat) (m : LruMap) :
    (pruneLoop cur i k m).2.current = m.current ∧
    (pruneLoop cur i k m).2.maxTick = m.maxTick ∧
    (pruneLoop cur i k m).2.count = m.count ∧
    (pruneLoop cur i k m).2.nextId = m.nextId ∧
    (pruneLoop cur i k m).2.frames.length = m.frames.length := by
  induction k generalizing i m with
  | zero => exact ⟨rfl, rfl, rfl, rfl, rfl⟩
  | succ k ih =>
    have h := ih (i + 1) (drainSlot m ((cur + i) % uintSize)).2
    simp only [pruneLoop] at h ⊢
    simpa [drainSlot] using h

theorem pruneLoop_table (cur i k : Nat) (m : LruMap) :
    (pruneLoop cur i k m).2.table = detachAll (pruneLoop cur i k m).1 m.table := by
  induction k generalizing i m with
  | zero => rfl
  | succ k ih =>
    simp only [pruneLoop]
    rw [detachAll_append]
    exact ih (i + 1) (drainSlot m ((cur + i) % uintSize)).2

theorem pruneLoop_multiset (cur i k : Nat) (m : LruMap) :
    (↑(pruneLoop cur i k m).1 : Multiset node) + ↑(pruneLoop cur i k m).2.liveNodes =
      ↑m.liveNodes := by
  induction k generalizing i m with
  | zero => simp [pruneLoop, LruMap.liveNodes]
  | succ k ih =>
    simp only [pruneLoop]
    have hd : (↑(drainSlot m ((cur + i) % uintSize)).2.liveNodes : Multiset node) +
        ↑(drainSlot m ((cur + i) % uintSize)).1 = ↑m.liveNodes := by
      simp only [drainSlot, LruMap.liveNodes]
      exact flatten_set_nil_multiset m.frames (((cur + i) % uintSize) % m.frames.length)
    have h := ih (i + 1) (drainSlot m ((cur + i) % uintSize)).2
    calc (↑((drainSlot m ((cur + i) % uintSize)).1 ++
            (pruneLoop cur (i + 1) k (drainSlot m ((cur + i) % uintSize)).2).1) : Multiset node) +
          ↑(pruneLoop cur (i + 1) k (drainSlot m ((cur + i) % uintSize)).2).2.liveNodes
        = ↑(drainSlot m ((cur + i) % uintSize)).1 +
            ((↑(pruneLoop cur (i + 1) k (drainSlot m ((cur + i) % uintSize)).2).1 : Multiset node) +
             ↑(pruneLoop cur (i + 1) k (drainSlot m ((cur + i) % uintSize)).2).2.liveNodes) := by
          rw [← Multiset.coe_add]; abel
      _ = ↑(drainSlot m ((cur + i) % uintSize)).1 +
            (↑(drainSlot m ((cur + i) % uintSize)).2.liveNodes : Multiset node) := by rw [h]
      _ = ↑m.liveNodes := by rw [add_comm]; exact hd

theorem pruneLoop_frames (cur i k : Nat) (m : LruMap) (j : Nat) :
    (pruneLoop cur i k m).2.frames.getD j [] = [] ∨
    ((pruneLoop cur i k m).2.frames.getD j [] = m.frames.getD j [] ∧
      ∀ t, i ≤ t → t < i + k → ((cur + t) % uintSize) % m.frames.length ≠ j) := by
  induction k generalizing i m with
  | zero =>
    right
    exact ⟨rfl, fun t h1 h2 => absurd h2 (by omega)⟩
  | succ k ih =>
    have hlen : (drainSlot m ((cur + i) % uintSize)).2.frames.length = m.frames.length := by
      simp [drainSlot]
    have hdf : (drainSlot m ((cur + i) % uintSize)).2.frames =
        m.frames.set (((cur + i) % uintSize) % m.frames.length) [] := by
      simp [drainSlot]
    have hrec := ih (i + 1) (drainSlot m ((cur + i) % uintSize)).2
    rw [hlen, hdf] at hrec
    have hgoal2 : (pruneLoop cur i (k + 1) m).2 =
        (pruneLoop cur (i + 1) k (drainSlot m ((cur + i) % uintSize)).2).2 := by
      simp only [pruneLoop]
    rw [hgoal2]
    rcases hrec with h | ⟨heq, hnv⟩
    · exact Or.inl h
    · by_cases hj : ((cur + i) % uintSize) % m.frames.length = j
      · left
        rw [heq, hj]
        exact getD_set_same m.frames j []
      · right
        rw [heq, getD_set_ne m.frames _ j [] [] hj]
        refine ⟨rfl, fun t h1 h2 => ?_⟩
        rcases Nat.eq_or_lt_of_le h1 with h1 | h1
        · rw [← h1]; exact hj
        · exact hnv t h1 (by omega)

/-! ### Bucket chain lemmas -/

theorem chainInsert_cases (c : List node) (x : node) :
    (chainInsert c x).2 = c ++ [x] ∨
    ((chainInsert c x).1 ≠ none ∧ (chainInsert c x).2 = c) := by
  induction c with
  | nil => left; rfl
  | cons a t ih =>
    cases t with
    | nil => left; rfl
    | cons b rest =>
      by_cases h : a.data.key = x.data.key
      · right
        simp [chainInsert, h]
      · rcases ih with h2 | ⟨h2a, h2b⟩
        · left
          simp [chainInsert, h, h2]
        · right
          simp [chainInsert, h, h2a, h2b]

theorem chainInsert_ok (c : List node) (x : node)
    (h : (chainInsert c x).1 = none) : (chainInsert c x).2 = c ++ [x] := by
  rcases chainInsert_cases c x with h2 | ⟨h2a, _⟩
  · exact h2
  · exact absurd h h2a

theorem chainSearch_some {c : List node} {key : List Byte} {n : node}
    (h : chainSearch c key = some n) : n ∈ c ∧ n.data.key = key := by
  induction c with
  | nil => simp [chainSearch] at h
  | cons a t ih =>
    by_cases ha : a.data.key = key
    · simp [chainSearch, ha] at h
      subst h
      exact ⟨List.mem_cons_self a t, ha⟩
    · simp only [chainSearch, if_neg ha] at h
      obtain ⟨hmem, hkey⟩ := ih h
      exact ⟨List.mem_cons_of_mem a hmem, hkey⟩

theorem chainSearch_first (c1 c2 : List node) (n : node) (key : List Byte)
    (hn : n.data.key = key) (hc1 : ∀ x ∈ c1, x.data.key ≠ key) :
    chainSearch (c1 ++ n :: c2) key = some n := by
  induction c1 with
  | nil => simp [chainSearch, hn]
  | cons a t ih =>
    have ha : a.data.key ≠ key := hc1 a (List.mem_cons_self a t)
    rw [List.cons_append]
    simp only [chainSearch, if_neg ha]
    exact ih (fun x hx => hc1 x (List.mem_cons_of_mem a hx))

theorem get_some {m : LruMap} {key : List Byte} {d : LruData}
    (h : m.Get key = some d) :
    ∃ n, n ∈ m.table (fnvHash key) ∧ n.data = d ∧ n.data.key = key := by
  simp only [LruMap.Get] at h
  split at h
  · exact absurd h (by simp)
  · rename_i n hs
    obtain ⟨hmem, hkey⟩ := chainSearch_some hs
    refine ⟨n, hmem, ?_, hkey⟩
    simpa using h

/-! ### The class invariant of reachable stores -/

/-- Consistency of a store state: the wheel has `maxTick + 1` slots, the
tick fits Go `uint64`, every nonempty slot lies in the size-`maxTick+1`
drain window starting at `current`, every chained node is held by some
wheel slot, and wheel nodes carry pairwise distinct allocation numbers,
all below the allocation counter. -/
structure StoreInv (m : LruMap) : Prop where
  hlen : m.frames.length = m.maxTick + 1
  hcur : m.current < uintSize
  hwindow : ∀ j, m.frames.getD j [] ≠ [] →
    ∃ d, d ≤ m.maxTick ∧ ((m.current + d) % uintSize) % m.frames.length = j
  hchain : ∀ h n, n ∈ m.table h → n ∈ m.liveNodes
  hids : (m.liveNodes.map node.id).Nodup
  hidlt : ∀ n ∈ m.liveNodes, n.id < m.nextId

theorem getD_replicate_nil {α : Type} (n j : Nat) :
    (List.replicate n ([] : List α)).getD j [] = [] := by
  rw [List.getD_eq_getElem?_getD, List.getElem?_replicate]
  split <;> rfl

theorem inv_new (maxTick : Nat) : StoreInv (LruMap.New maxTick) := by
  refine ⟨?_, ?_, ?_, ?_, ?_, ?_⟩
  · simp [LruMap.New]
  · norm_num [LruMap.New, uintSize]
  · intro j hj
    exact absurd (getD_replicate_nil (maxTick + 1) j) hj
  · intro h n hn
    simp [LruMap.New] at hn
  · simp [LruMap.liveNodes, LruMap.New, List.flatten_replicate_nil]
  · intro n hn
    simp [LruMap.liveNodes, LruMap.New, List.flatten_replicate_nil] at hn

theorem mem_flatten_set_cons (l : List (List node)) (p : Nat) (nn x : node)
    (hp : p < l.length) :
    x ∈ (l.set p (nn :: l.getD p [])).flatten ↔ x = nn ∨ x ∈ l.flatten := by
  have hms := flatten_set_cons_multiset l p nn hp
  constructor
  · intro hx
    have h1 : x ∈ (↑((l.set p (nn :: l.getD p [])).flatten) : Multiset node) :=
      Multiset.mem_coe.2 hx
    rw [hms] at h1
    rcases Multiset.mem_cons.1 h1 with h2 | h2
    · exact Or.inl h2
    · exact Or.inr (Multiset.mem_coe.1 h2)
  · intro hx
    have h1 : x ∈ (nn ::ₘ (↑l.flatten : Multiset node)) := by
      rcases hx with h2 | h2
      · exact Multiset.mem_cons.2 (Or.inl h2)
      · exact Multiset.mem_cons.2 (Or.inr (Multiset.mem_coe.2 h2))
    rw [← hms] at h1
    exact Multiset.mem_coe.1 h1


theorem inv_put_aux (m : LruMap) (obj : LruData) (ttl p : Nat) (hm : StoreInv m)
    (httl : ttl ≤ m.maxTick) (hp : p = ((m.current + ttl) % uintSize) % m.frames.length) :
    StoreInv
      { table := fun h => if h = fnvHash obj.key then
            (chainInsert (m.table (fnvHash obj.key)) ⟨m.nextId, obj⟩).2
          else m.table h
        frames := m.frames.set p (⟨m.nextId, obj⟩ :: m.frames.getD p [])
        current := m.current
        maxTick := m.maxTick
        count := m.count + 1
        nextId := m.nextId + 1 } := by
  have hL : 0 < m.frames.length := by rw [hm.hlen]; omega
  have hpL : p < m.frames.length := by rw [hp]; exact Nat.mod_lt _ hL
  have hmem := mem_flatten_set_cons m.frames p ⟨m.nextId, obj⟩
  refine ⟨?_, ?_, ?_, ?_, ?_, ?_⟩
  · dsimp only
    rw [List.length_set]
    exact hm.hlen
  · exact hm.hcur
  · dsimp only
    intro j hj
    rw [List.length_set]
    by_cases hjp : p = j
    · exact ⟨ttl, httl, by rw [← hp]; exact hjp⟩
    · rw [getD_set_ne m.frames p j _ [] hjp] at hj
      exact hm.hwindow j hj
  · dsimp only [LruMap.liveNodes]
    intro h n hn
    by_cases hh : h = fnvHash obj.key
    · rw [if_pos hh] at hn
      rcases chainInsert_cases (m.table (fnvHash obj.key)) ⟨m.nextId, obj⟩ with hc | ⟨_, hc⟩
      · rw [hc, List.mem_append] at hn
        rcases hn with h1 | h1
        · exact (hmem n hpL).2 (Or.inr (hm.hchain _ n h1))
        · have h2 : n = ⟨m.nextId, obj⟩ := by simpa using h1
          exact (hmem n hpL).2 (Or.inl h2)
      · rw [hc] at hn
        exact (hmem n hpL).2 (Or.inr (hm.hchain _ n hn))
    · rw [if_neg hh] at hn
      exact (hmem n hpL).2 (Or.inr (hm.hchain _ n hn))
  · dsimp only [LruMap.liveNodes]
    have hms := flatten_set_cons_multiset m.frames p (⟨m.nextId, obj⟩ : node) hpL
    rw [← Multiset.coe_nodup]
    have hmap : (↑(List.map node.id
          (m.frames.set p ((⟨m.nextId, obj⟩ : node) :: m.frames.getD p [])).flatten) :
            Multiset Nat) =
        (⟨m.nextId, obj⟩ : node).id ::ₘ ↑(List.map node.id m.frames.flatten) := by
      rw [← Multiset.map_coe, hms, Multiset.map_cons, Multiset.map_coe]
    rw [hmap, Multiset.nodup_cons]
    refine ⟨?_, Multiset.coe_nodup.2 hm.hids⟩
    intro hmm
    obtain ⟨x, hx, hxid⟩ := List.mem_map.1 (Multiset.mem_coe.1 hmm)
    exact Nat.ne_of_lt (hm.hidlt x hx) hxid
  · dsimp only [LruMap.liveNodes]
    intro n hn
    rcases (hmem n hpL).1 hn with h | h
    · rw [h]
      exact Nat.lt_succ_self _
    · exact Nat.lt_succ_of_lt (hm.hidlt n h)

theorem inv_put (m : LruMap) (obj : LruData) (ttl : Nat) (hm : StoreInv m) :
    StoreInv (m.Put obj ttl).2 := by
  by_cases httl : m.maxTick < ttl
  · simpa [LruMap.Put, httl] using hm
  · have h := inv_put_aux m obj ttl (((m.current + ttl) % uintSize) % m.frames.length)
      hm (Nat.le_of_not_lt httl) rfl
    simp only [LruMap.Put, if_neg httl]
    exact h

theorem inv_prune (m : LruMap) (progress : Nat) (hm : StoreInv m) :
    StoreInv (m.Prune progress).2 := by
  obtain ⟨hcur, hmt, hcnt, hni, hlen2⟩ := pruneLoop_fields m.current 0 progress m
  have htab := pruneLoop_table m.current 0 progress m
  have hms := pruneLoop_multiset m.current 0 progress m
  have hle : (↑(pruneLoop m.current 0 progress m).2.liveNodes : Multiset node) ≤
      ↑m.liveNodes := by
    rw [← hms]; exact le_add_self
  have hU : 0 < uintSize := by norm_num [uintSize]
  refine ⟨?_, ?_, ?_, ?_, ?_, ?_⟩
  · dsimp only [LruMap.Prune]
    rw [hlen2, hmt]
    exact hm.hlen
  · dsimp only [LruMap.Prune]
    exact Nat.mod_lt _ hU
  · dsimp only [LruMap.Prune]
    intro j hj
    rcases pruneLoop_frames m.current 0 progress m j with he | ⟨heq, hnv⟩
    · exact absurd he hj
    · rw [heq] at hj
      obtain ⟨d, hd, hds⟩ := hm.hwindow j hj
      have hpd : progress ≤ d := by
        by_contra hlt
        exact hnv d (Nat.zero_le d) (by omega) hds
      rw [hmt, hcur, hlen2]
      refine ⟨d - progress, by omega, ?_⟩
      rw [Nat.mod_add_mod, show m.current + progress + (d - progress) = m.current + d from by
        omega]
      exact hds
  · dsimp only [LruMap.Prune, LruMap.liveNodes]
    intro h n hn
    rw [htab] at hn
    obtain ⟨hmemtab, hdiff⟩ := (mem_detachAll _ _ h n).1 hn
    have hlive : n ∈ m.liveNodes := hm.hchain h n hmemtab
    have h1 : n ∈ (↑(pruneLoop m.current 0 progress m).1 : Multiset node) +
        ↑(pruneLoop m.current 0 progress m).2.liveNodes := by
      rw [hms]; exact Multiset.mem_coe.2 hlive
    rcases Multiset.mem_add.1 h1 with h2 | h2
    · exact absurd rfl (hdiff n (Multiset.mem_coe.1 h2))
    · exact Multiset.mem_coe.1 h2
  · dsimp only [LruMap.Prune, LruMap.liveNodes]
    have h2 := @Multiset.map_le_map node Nat node.id _ _ hle
    rw [Multiset.map_coe, Multiset.map_coe] at h2
    exact Multiset.coe_nodup.1 (Multiset.nodup_of_le h2 (Multiset.coe_nodup.2 hm.hids))
  · dsimp only [LruMap.Prune, LruMap.liveNodes]
    intro n hn
    have h4 : n ∈ m.liveNodes :=
      Multiset.mem_coe.1 (Multiset.mem_of_le hle (Multiset.mem_coe.2 hn))
    rw [hni]
    exact hm.hidlt n h4

/-- Every store reachable through the public API satisfies the class
invariant. -/
theorem reachable_inv {m : LruMap} (h : Reachable m) : StoreInv m := by
  induction h with
  | new maxTick => exact inv_new maxTick
  | put obj ttl _ ih => exact inv_put _ obj ttl ih
  | prune progress _ ih => exact inv_prune _ progress ih

/-! ### Consequences used by the claims -/

theorem prune_current (m : LruMap) (progress : Nat) :
    (m.Prune progress).2.current = (m.current + progress) % uintSize := by
  dsimp only [LruMap.Prune]
  rw [(pruneLoop_fields m.current 0 progress m).1]

theorem prune_table (m : LruMap) (progress : Nat) :
    (m.Prune progress).2.table = detachAll (pruneLoop m.current 0 progress m).1 m.table := by
  dsimp only [LruMap.Prune]
  exact pruneLoop_table m.current 0 progress m

theorem prune_result (m : LruMap) (progress : Nat) :
    (m.Prune progress).1 = (pruneLoop m.current 0 progress m).1.map node.data := rfl

theorem get_of_empty_table (m : LruMap) (key : List Byte)
    (h : m.table (fnvHash key) = []) : m.Get key = none := by
  simp [LruMap.Get, h, chainSearch]

/-- A full cycle of the wheel from a consistent state drains exactly the
wheel contents and leaves every bucket chain empty. -/
theorem prune_full_cycle (m : LruMap) (hm : StoreInv m) :
    ((↑(pruneLoop m.current 0 (m.maxTick + 1) m).1 : Multiset node) = ↑m.liveNodes) ∧
    (∀ h, (m.Prune (m.maxTick + 1)).2.table h = []) := by
  have hempty : ∀ j, (pruneLoop m.current 0 (m.maxTick + 1) m).2.frames.getD j [] = [] := by
    intro j
    rcases pruneLoop_frames m.current 0 (m.maxTick + 1) m j with h | ⟨heq, hnv⟩
    · exact h
    · rw [heq]
      by_contra hne
      obtain ⟨d, hd, hds⟩ := hm.hwindow j hne
      exact hnv d (Nat.zero_le d) (by omega) hds
  have hflat : (pruneLoop m.current 0 (m.maxTick + 1) m).2.liveNodes = [] :=
    flatten_eq_nil_of_getD _ hempty
  have hdrain : (↑(pruneLoop m.current 0 (m.maxTick + 1) m).1 : Multiset node) =
      ↑m.liveNodes := by
    have h1 := pruneLoop_multiset m.current 0 (m.maxTick + 1) m
    rw [hflat] at h1
    simpa using h1
  refine ⟨hdrain, ?_⟩
  intro h
  rw [prune_table, List.eq_nil_iff_forall_not_mem]
  intro x hx
  obtain ⟨hxt, hdiff⟩ := (mem_detachAll _ _ h x).1 hx
  have hlive : x ∈ m.liveNodes := hm.hchain h x hxt
  have hxm : x ∈ (↑(pruneLoop m.current 0 (m.maxTick + 1) m).1 : Multiset node) := by
    rw [hdrain]; exact Multiset.mem_coe.2 hlive
  exact hdiff x (Multiset.mem_coe.1 hxm) rfl

/-! ### The concrete scenario of the repository's own test
(`TestBasicScenario`): capacity 12, key "abc", ttl 3. -/

def keyABC : List Byte := [97, 98, 99]

def keyXYZ : List Byte := [120, 121, 122]

def dataABC : LruData := { key := keyABC, val := 0 }

def dataABC2 : LruData := { key := keyABC, val := 1 }

def store12 : LruMap := LruMap.New 12

def store12a : LruMap := (store12.Put dataABC 3).2

def store12b : LruMap := (store12a.Prune 1).2

def store12c : LruMap := (store12b.Prune 1).2

def store12d : LruMap := (store12c.Prune 1).2

def storeDup : LruMap := (store12a.Put dataABC2 3).2

def storeTick1 : LruMap := ((LruMap.New 0).Prune 1).2

/-! ### The claims -/

/-- C1: the claim states that a second `Put` whose key is byte-equal to a
live entry's key fails with DuplicateKey and leaves the store unchanged.
The code does the opposite: the scan in `bucket.insert` never compares the
final node of the chain, and `LruMap.Put` discards the insert error
anyway, so the duplicate `Put` returns nil, the duplicate node is linked
into both the hash chain and the wheel, and `Size` rises to 2. -/
theorem put_duplicate_silently_accepted :
    (store12a.Put dataABC2 3).1 = none ∧
    storeDup.Size = 2 ∧
    storeDup.table (fnvHash keyABC) = [⟨0, dataABC⟩, ⟨1, dataABC2⟩] ∧
    storeDup.liveNodes = [⟨1, dataABC2⟩, ⟨0, dataABC⟩] := by
  refine ⟨by decide, by decide, by decide, by decide⟩

/-- C2: the claim (and the repository's own test) expects the entry put
with ttl 3 to be pruned by the third `Advance(1)`, i.e. once cumulative
progress reaches the ttl.  Evaluating the code on exactly that scenario
(capacity 12, key "abc", ttl 3): the first three `Prune 1` calls all
return the empty list, the entry is still retrievable afterwards with
`Size` 1, and only the fourth `Prune 1` (cumulative progress 4) returns
it. -/
theorem ttl_expiry_off_by_one :
    store12a.Get keyABC = some dataABC ∧
    store12a.Get keyXYZ = none ∧
    (store12a.Prune 1).1 = [] ∧
    store12b.Get keyABC = some dataABC ∧
    (store12b.Prune 1).1 = [] ∧
    store12c.Get keyABC = some dataABC ∧
    (store12c.Prune 1).1 = [] ∧
    store12d.Get keyABC = some dataABC ∧
    store12d.Size = 1 ∧
    (store12d.Prune 1).1 = [dataABC] ∧
    (store12d.Prune 1).2.Get keyABC = none := by
  refine ⟨by decide, by decide, by decide, by decide, by decide, by decide, by decide,
    by decide, by decide, by decide, by decide⟩

/-- C3: the claim states `Size()` always equals the number of distinct
keys with a present `Get`.  After two `Put`s of byte-equal keys the code
reports `Size` 2 while the only key `Get` can return is "abc", so the
claimed equality fails (2 vs 1) on this reachable store. -/
theorem size_counts_unreachable_duplicates :
    storeDup.Size = 2 ∧ storeDup.Get keyABC = some dataABC ∧
    ∀ key, (storeDup.Get key).isSome = true → key = keyABC := by
  refine ⟨by decide, by decide, fun key hk => ?_⟩
  obtain ⟨d, hd⟩ := Option.isSome_iff_exists.1 hk
  obtain ⟨n, hmem, hnd, hkey⟩ := get_some hd
  have hr : Reachable storeDup :=
    Reachable.put dataABC2 3 (Reachable.put dataABC 3 (Reachable.new 12))
  have hlive := (reachable_inv hr).hchain _ n hmem
  have hln : storeDup.liveNodes = [⟨1, dataABC2⟩, ⟨0, dataABC⟩] := by decide
  rw [hln] at hlive
  simp only [List.mem_cons, List.not_mem_nil, or_false] at hlive
  rcases hlive with h | h <;> rw [← hkey, h] <;> rfl

/-- C3 witness. -/
theorem size_counts_unreachable_duplicates_witness :
    (storeDup.Get keyABC).isSome = true ∧ keyABC = keyABC :=
  ⟨by decide, size_counts_unreachable_duplicates.2.2 keyABC (by decide)⟩

/-- C4: `Put` fails — and fails precisely with the TTL range error — iff
the requested ttl exceeds `maxTick`, and a rejected `Put` returns the
store completely unchanged. -/
theorem put_ttl_range (m : LruMap) (obj : LruData) (ttl : Nat) :
    ((m.Put obj ttl).1 ≠ none ↔ m.maxTick < ttl) ∧
    ((m.Put obj ttl).1 = some "TTL is over maxTick" ↔ m.maxTick < ttl) ∧
    (m.maxTick < ttl → (m.Put obj ttl).2 = m) := by
  by_cases h : m.maxTick < ttl
  · simp [LruMap.Put, h]
  · simp [LruMap.Put, h]

/-- C4 witness. -/
theorem put_ttl_range_witness :
    (LruMap.New 3).maxTick < 5 ∧ ((LruMap.New 3).Put dataABC 5).2 = LruMap.New 3 :=
  ⟨by decide, (put_ttl_range (LruMap.New 3) dataABC 5).2.2 (by decide)⟩

/-- C5: from every reachable store, one `Advance(maxTick + 1)` call
returns every live wheel entry exactly once — the drained node list is a
permutation of the wheel contents, whose allocation numbers are pairwise
distinct — and afterwards `Get` returns absent for every key. -/
theorem advance_full_cycle_drains (m : LruMap) (hr : Reachable m) :
    (pruneLoop m.current 0 (m.maxTick + 1) m).1.Perm m.liveNodes ∧
    (m.liveNodes.map node.id).Nodup ∧
    (m.Prune (m.maxTick + 1)).1 =
      (pruneLoop m.current 0 (m.maxTick + 1) m).1.map node.data ∧
    ∀ key, (m.Prune (m.maxTick + 1)).2.Get key = none := by
  have hm := reachable_inv hr
  obtain ⟨hdrain, htable⟩ := prune_full_cycle m hm
  refine ⟨Multiset.coe_eq_coe.1 hdrain, hm.hids, prune_result m (m.maxTick + 1), ?_⟩
  intro key
  exact get_of_empty_table _ key (htable (fnvHash key))

/-- C5 witness. -/
theorem advance_full_cycle_drains_witness :
    Reachable store12a ∧
    ((pruneLoop store12a.current 0 (store12a.maxTick + 1) store12a).1.Perm
        store12a.liveNodes ∧
      (store12a.liveNodes.map node.id).Nodup ∧
      (store12a.Prune (store12a.maxTick + 1)).1 =
        (pruneLoop store12a.current 0 (store12a.maxTick + 1) store12a).1.map node.data ∧
      ∀ key, (store12a.Prune (store12a.maxTick + 1)).2.Get key = none) :=
  have hr : Reachable store12a := Reachable.put dataABC 3 (Reachable.new 12)
  ⟨hr, advance_full_cycle_drains store12a hr⟩

/-- C6: `Advance` is total for every progress (it returns a list, never an
error or an absent value), and `Advance 0` returns the empty list while
leaving the entire store state — `currentTick` included — unchanged. -/
theorem advance_zero_noop (m : LruMap) (hcur : m.current < uintSize) :
    (m.Prune 0).1 = [] ∧ (m.Prune 0).2 = m := by
  obtain ⟨t, f, c, mt, cnt, ni⟩ := m
  refine ⟨rfl, ?_⟩
  dsimp only [LruMap.Prune, pruneLoop]
  simp only [LruMap.mk.injEq, List.length_nil, Nat.cast_zero, sub_zero, Nat.add_zero,
    and_true, true_and]
  exact Nat.mod_eq_of_lt hcur

/-- C6 witness. -/
theorem advance_zero_noop_witness :
    (LruMap.New 7).current < uintSize ∧
    ((LruMap.New 7).Prune 0).1 = [] ∧ ((LruMap.New 7).Prune 0).2 = LruMap.New 7 :=
  have hc : (LruMap.New 7).current < uintSize := by decide
  ⟨hc, advance_zero_noop (LruMap.New 7) hc⟩

/-- C7: the hash over the key bytes is exactly 64-bit FNV-1a: offset basis
14695981039346656037, and for each byte in order the byte is XORed into
the hash which is then multiplied by 1099511628211, modulo 2^64; checked
also against the standard test vector FNV-1a("a") = 0xaf63dc4c8601ec8c. -/
theorem fnvHash_is_fnv1a :
    fnvHash [] = 14695981039346656037 ∧
    (∀ (s : List Byte) (b : Byte),
      fnvHash (s ++ [b]) = ((fnvHash s ^^^ b.val) * 1099511628211) % 2 ^ 64) ∧
    fnvHash [97] = 12638187200555641996 := by
  refine ⟨rfl, ?_, by decide⟩
  intro s b
  simp [fnvHash, fnvPrime, uintSize, List.foldl_append]

/-- C8 counterexample: the claim asserts `currentTick` never decreases
even when the 64-bit addition overflows, but `Prune` adds progress modulo
2^64: advancing by 2^64 - 1 from tick 1 wraps the counter to 0 < 1. -/
theorem current_tick_wraps_on_overflow :
    (storeTick1.Prune (uintSize - 1)).2.current < storeTick1.current := by
  rw [prune_current]
  have h1 : storeTick1.current = 1 := by decide
  rw [h1]
  norm_num [uintSize]

/-- C8 (amended): `currentTick` is non-decreasing under every operation
provided the uint64 addition in `Advance` does not overflow: `Put` leaves
it unchanged for every argument (and `Get`/`Size` mutate nothing), and
`Advance p` moves it from `current` to `current + p` when
`current + p < 2^64`. -/
theorem current_tick_monotone (m : LruMap) (p : Nat) (hov : m.current + p < uintSize) :
    (∀ (obj : LruData) (ttl : Nat), (m.Put obj ttl).2.current = m.current) ∧
    m.current ≤ (m.Prune p).2.current := by
  constructor
  · intro obj ttl
    by_cases h : m.maxTick < ttl
    · simp [LruMap.Put, h]
    · simp [LruMap.Put, h]
  · rw [prune_current, Nat.mod_eq_of_lt hov]
    exact Nat.le_add_right _ _

/-- C8 witness. -/
theorem current_tick_monotone_witness :
    (LruMap.New 3).current + 5 < uintSize ∧
    ((LruMap.New 3).Put dataABC 2).2.current = (LruMap.New 3).current ∧
    (LruMap.New 3).current ≤ ((LruMap.New 3).Prune 5).2.current :=
  have hov : (LruMap.New 3).current + 5 < uintSize := by decide
  ⟨hov, (current_tick_monotone (LruMap.New 3) 5 hov).1 dataABC 2,
    (current_tick_monotone (LruMap.New 3) 5 hov).2⟩

/-- C9: when a bucket chain holds several byte-equal keys (possible via
the duplicate-insert leak), `Get` returns the payload of the
earliest-inserted match: `bucket.search` scans the chain from its head,
which is insertion order because a successful `bucket.insert` appends the
new node at the tail. -/
theorem get_returns_earliest_match :
    (∀ (m : LruMap) (key : List Byte) (c1 c2 : List node) (n : node),
      m.table (fnvHash key) = c1 ++ n :: c2 → n.data.key = key →
      (∀ x ∈ c1, x.data.key ≠ key) → m.Get key = some n.data) ∧
    (∀ (c : List node) (x : node),
      (chainInsert c x).1 = none → (chainInsert c x).2 = c ++ [x]) := by
  constructor
  · intro m key c1 c2 n hc hn hc1
    simp only [LruMap.Get, hc]
    rw [chainSearch_first c1 c2 n key hn hc1]
  · exact chainInsert_ok

/-- C9 witness. -/
theorem get_returns_earliest_match_witness :
    storeDup.table (fnvHash keyABC) = [] ++ (⟨0, dataABC⟩ : node) :: [⟨1, dataABC2⟩] ∧
    (⟨0, dataABC⟩ : node).data.key = keyABC ∧
    storeDup.Get keyABC = some dataABC ∧
    (chainInsert [⟨0, dataABC⟩] ⟨1, dataABC2⟩).1 = none ∧
    (chainInsert [⟨0, dataABC⟩] ⟨1, dataABC2⟩).2 = [⟨0, dataABC⟩] ++ [⟨1, dataABC2⟩] :=
  have h1 : storeDup.table (fnvHash keyABC) =
      [] ++ (⟨0, dataABC⟩ : node) :: [⟨1, dataABC2⟩] := by decide
  ⟨h1, rfl,
    get_returns_earliest_match.1 storeDup keyABC [] [⟨1, dataABC2⟩] ⟨0, dataABC⟩ h1 rfl
      (by simp),
    by decide,
    get_returns_earliest_match.2 [⟨0, dataABC⟩] ⟨1, dataABC2⟩ (by decide)⟩

/-- C10: for any progress strictly greater than the wheel length
`maxTick + 1`, a single `Advance` still returns each live entry at most
once: the drained node list has no duplicates and, as a multiset, is
contained in the wheel contents (a slot revisited within one `Advance` is
empty after its first drain). -/
theorem advance_each_entry_at_most_once (m : LruMap) (progress : Nat) (hr : Reachable m)
    (_hp : m.maxTick + 1 < progress) :
    (pruneLoop m.current 0 progress m).1.Nodup ∧
    (↑(pruneLoop m.current 0 progress m).1 : Multiset node) ≤ ↑m.liveNodes ∧
    (m.Prune progress).1 = (pruneLoop m.current 0 progress m).1.map node.data := by
  have hm := reachable_inv hr
  have hle : (↑(pruneLoop m.current 0 progress m).1 : Multiset node) ≤ ↑m.liveNodes := by
    rw [← pruneLoop_multiset m.current 0 progress m]
    exact self_le_add_right _ _
  refine ⟨?_, hle, prune_result m progress⟩
  have h2 := @Multiset.map_le_map node Nat node.id _ _ hle
  rw [Multiset.map_coe, Multiset.map_coe] at h2
  exact List.Nodup.of_map node.id
    (Multiset.coe_nodup.1 (Multiset.nodup_of_le h2 (Multiset.coe_nodup.2 hm.hids)))

/-- C10 witness. -/
theorem advance_each_entry_at_most_once_witness :
    Reachable store12a ∧ store12a.maxTick + 1 < 14 ∧
    ((pruneLoop store12a.current 0 14 store12a).1.Nodup ∧
      (↑(pruneLoop store12a.current 0 14 store12a).1 : Multiset node) ≤
        ↑store12a.liveNodes ∧
      (store12a.Prune 14).1 = (pruneLoop store12a.current 0 14 store12a).1.map node.data) :=
  have hr : Reachable store12a := Reachable.put dataABC 3 (Reachable.new 12)
  have hp : store12a.maxTick + 1 < 14 := by decide
  ⟨hr, hp, advance_each_entry_at_most_once store12a 14 hr hp⟩
